import Mathlib

/-!
# Verification of the AMQP channel layer specification

The repository ships only TypeScript declaration files (`amqp-channel.d.ts`,
`amqp-queue.d.ts`); the companion `.js` implementation files are absent.
Every operation below is therefore modelled from the specification text
(`spec.md`), faithful to its words, and the claims are settled against the
models.

Byte strings are `List Nat` with each element intended `< 256`.
Pending continuations (promise resolve/reject pairs) are modelled as
numeric identifiers; settling a continuation is modelled as emitting an
`Event` naming it, so "each exactly once" becomes a statement about the
emitted event list.
-/

namespace AMQP

/-- Errors of the error taxonomy in spec §7 that the modelled operations raise. -/
inductive AMQPError where
  | channelClosed
  | protocolError
  deriving DecidableEq, Repr

/-- Observable effects of a channel-state operation: settling an RPC
continuation, settling a publish-confirm continuation, or raising an error. -/
inductive Event where
  | rpcResolve (id : Nat)
  | rpcReject (id : Nat)
  | pubResolve (tag : Nat) (id : Nat)
  | pubReject (tag : Nat) (id : Nat)
  | error (e : AMQPError)
  deriving DecidableEq, Repr

/-- Modelled from the spec: §3 "Channel" attributes of `amqp-channel.d.ts`,
whose implementation file is missing from the repository.
`pendingRpcs` is the FIFO of pending RPC continuations (`promises` in the
source declarations), `unconfirmed` the ordered delivery-tag map
(`unconfirmedPublishes`), `consumers` the consumer table with each
consumer's closed mark. -/
structure Channel where
  closed : Bool
  pendingRpcs : List Nat
  unconfirmed : List (Nat × Nat)
  confirmId : Nat
  consumers : List (String × Bool)
  deriving DecidableEq, Repr

/-- The event settling one unconfirmed publish: reject on nack, resolve on ack. -/
def settleEvent (nack : Bool) (e : Nat × Nat) : Event :=
  if nack then Event.pubReject e.1 e.2 else Event.pubResolve e.1 e.2

/-- Modelled from the spec: §4.3 confirm handling of the missing
`publishConfirmed` implementation. `multiple=true` drains every entry with
key ≤ tag from the head of the ordered map, settling each in order;
`multiple=false` settles exactly the entry at `tag`, raising
`ProtocolError` when the key is missing. -/
def publishConfirmed (deliveryTag : Nat) (multiple : Bool) (nack : Bool)
    (ch : Channel) : Channel × List Event :=
  if multiple then
    let settled := ch.unconfirmed.takeWhile (fun e => e.1 ≤ deliveryTag)
    let remaining := ch.unconfirmed.dropWhile (fun e => e.1 ≤ deliveryTag)
    ({ ch with unconfirmed := remaining }, settled.map (settleEvent nack))
  else
    match ch.unconfirmed.find? (fun e => e.1 == deliveryTag) with
    | some e =>
        ({ ch with unconfirmed := ch.unconfirmed.filter (fun x => ¬ x.1 == deliveryTag) },
         [settleEvent nack e])
    | none => (ch, [Event.error AMQPError.protocolError])

/-- Modelled from the spec: §4.2 `resolvePromise` of the missing channel
implementation: remove the head of `pending_rpcs` and complete it, returning
whether a continuation was completed. -/
def resolvePromise (ch : Channel) : Channel × List Event × Bool :=
  match ch.pendingRpcs with
  | [] => (ch, [], false)
  | id :: rest => ({ ch with pendingRpcs := rest }, [Event.rpcResolve id], true)

/-- Modelled from the spec: §4.2 `rejectPromise`, the rejecting counterpart
of `resolvePromise`. -/
def rejectPromise (ch : Channel) : Channel × List Event × Bool :=
  match ch.pendingRpcs with
  | [] => (ch, [], false)
  | id :: rest => ({ ch with pendingRpcs := rest }, [Event.rpcReject id], true)

/-- Modelled from the spec: §4.2 `send_rpc` of the missing implementation.
On a closed channel fail immediately with `ChannelClosed`, writing nothing
and recording nothing; otherwise append the continuation to `pending_rpcs`
and write the frame. Frames are byte lists; the result is the new state,
the frames written, and the immediate outcome (`some err` = immediate
failure of the returned future). -/
def sendRpc (rpcId : Nat) (frame : List Nat) (ch : Channel) :
    Channel × List (List Nat) × Option AMQPError :=
  if ch.closed then
    (ch, [], some AMQPError.channelClosed)
  else
    ({ ch with pendingRpcs := ch.pendingRpcs ++ [rpcId] }, [frame], none)

/-- Modelled from the spec: §4.2/§3 invariant 6, the missing `setClosed`:
mark the channel closed, reject every pending RPC in order, reject every
unconfirmed publish in order, and mark every consumer closed. -/
def setClosed (ch : Channel) : Channel × List Event :=
  ({ closed := true
     pendingRpcs := []
     unconfirmed := []
     confirmId := ch.confirmId
     consumers := ch.consumers.map (fun c => (c.1, true)) },
   ch.pendingRpcs.map Event.rpcReject ++ ch.unconfirmed.map (fun e => Event.pubReject e.1 e.2))

/-- Modelled from the spec: §4.4/§4.5, arrival of `basic.consume-ok`:
resolves the pending RPC at the head of the FIFO and registers the consumer
under the server-assigned tag; with no pending RPC the reply is unexpected. -/
def consumeOk (tag : String) (ch : Channel) : Channel × List Event :=
  match ch.pendingRpcs with
  | [] => (ch, [Event.error AMQPError.protocolError])
  | id :: rest =>
      ({ ch with pendingRpcs := rest, consumers := ch.consumers ++ [(tag, false)] },
       [Event.rpcResolve id])

/-- One modelled channel-state transition, for reachability statements:
every operation of the model that mutates channel state. -/
inductive Step : Channel → Channel → Prop where
  | sendRpc (id : Nat) (frame : List Nat) (ch : Channel) :
      Step ch (sendRpc id frame ch).1
  | resolvePromise (ch : Channel) : Step ch (resolvePromise ch).1
  | rejectPromise (ch : Channel) : Step ch (rejectPromise ch).1
  | publishConfirmed (tag : Nat) (multiple nack : Bool) (ch : Channel) :
      Step ch (publishConfirmed tag multiple nack ch).1
  | setClosed (ch : Channel) : Step ch (setClosed ch).1
  | consumeOk (tag : String) (ch : Channel) : Step ch (consumeOk tag ch).1

/-- Zero or more modelled transitions. -/
def Reachable : Channel → Channel → Prop := Relation.ReflTransGen Step

/-- The state predicate spec §3 invariant 6 requires after closing:
closed, no pending RPC left unsettled, no unconfirmed publish left
unsettled, every consumer marked closed. -/
def ClosedDrained (ch : Channel) : Prop :=
  ch.closed = true ∧ ch.pendingRpcs = [] ∧ ch.unconfirmed = [] ∧
  ∀ c ∈ ch.consumers, c.2 = true

/-- Keys of the unconfirmed map in ascending (strictly increasing) order,
spec §3 invariant 2. -/
def UnconfirmedSorted (ch : Channel) : Prop :=
  ch.unconfirmed.Pairwise (fun a b => a.1 < b.1)

/-- The delivery tag carried by a publish-confirm event (0 for the others). -/
def confirmTag : Event → Nat
  | .pubResolve t _ => t
  | .pubReject t _ => t
  | _ => 0

/-- Drive `resolvePromise` up to `fuel` times, collecting the events in the
order the continuations are completed; stops when the FIFO is empty. -/
def drainAll (fuel : Nat) (ch : Channel) : List Event :=
  match fuel with
  | 0 => []
  | fuel + 1 =>
      let r := resolvePromise ch
      if r.2.2 then r.2.1 ++ drainAll fuel r.1 else []

/-! ## Byte-level helpers of the frame codec (spec §4.1) -/

/-- Big-endian unsigned encoding of `n` into `k` bytes. -/
def encodeUInt (k : Nat) (n : Nat) : List Nat :=
  match k with
  | 0 => []
  | k + 1 => (n / 256 ^ k) % 256 :: encodeUInt k (n % 256 ^ k)

/-- Big-endian unsigned decoding of `k` bytes, rejecting out-of-range byte
values; returns the value and the remaining input. -/
def decodeUInt : Nat → List Nat → Option (Nat × List Nat)
  | 0, bs => some (0, bs)
  | _ + 1, [] => none
  | k + 1, b :: bs =>
      if b < 256 then
        (decodeUInt k bs).map (fun p => (b * 256 ^ k + p.1, p.2))
      else none

/-- Split off exactly `n` leading bytes, failing when the input is shorter. -/
def takeExact (n : Nat) (bs : List Nat) : Option (List Nat × List Nat) :=
  if n ≤ bs.length then some (bs.take n, bs.drop n) else none

/-- Short-string encoding, spec §4.1: one length byte then the bytes. -/
def shortstrE (s : List Nat) : List Nat :=
  encodeUInt 1 s.length ++ s

/-- Short-string decoding: length byte, then exactly that many bytes. -/
def decodeShortstr (bs : List Nat) : Option (List Nat × List Nat) :=
  match decodeUInt 1 bs with
  | some (n, rest) => takeExact n rest
  | none => none

/-! ## Field tables (spec §4.1)

Modelled from the spec: the field-table grammar of the missing frame codec.
Strings are raw byte lists; signed integers are kept as their raw
big-endian unsigned byte value (the codec copies bytes, it does not
interpret them); `f32`/`f64` are kept as their raw IEEE-754 bit patterns
for the same reason. -/

mutual
inductive FieldValue where
  | boolV (b : Bool)
  | i8 (n : Nat)
  | u8 (n : Nat)
  | i16 (n : Nat)
  | u16 (n : Nat)
  | i32 (n : Nat)
  | u32 (n : Nat)
  | i64 (n : Nat)
  | f32 (bits : Nat)
  | f64 (bits : Nat)
  | dec (scale : Nat) (value : Nat)
  | longstr (s : List Nat)
  | arr (a : FieldArray)
  | timestamp (n : Nat)
  | table (t : FieldTable)
  | voidV
  deriving DecidableEq, Repr
inductive FieldTable where
  | nil
  | cons (name : List Nat) (v : FieldValue) (rest : FieldTable)
  deriving DecidableEq, Repr
inductive FieldArray where
  | anil
  | acons (v : FieldValue) (rest : FieldArray)
  deriving DecidableEq, Repr
end

mutual
/-- Encode one typed field value: type tag byte then the typed encoding
(spec §4.1's exact tag list). -/
def encodeValue : FieldValue → List Nat
  | .boolV b => 116 :: encodeUInt 1 (if b then 1 else 0)
  | .i8 n => 98 :: encodeUInt 1 n
  | .u8 n => 66 :: encodeUInt 1 n
  | .i16 n => 115 :: encodeUInt 2 n
  | .u16 n => 117 :: encodeUInt 2 n
  | .i32 n => 73 :: encodeUInt 4 n
  | .u32 n => 105 :: encodeUInt 4 n
  | .i64 n => 108 :: encodeUInt 8 n
  | .f32 bits => 102 :: encodeUInt 4 bits
  | .f64 bits => 100 :: encodeUInt 8 bits
  | .dec s v => 68 :: (encodeUInt 1 s ++ encodeUInt 4 v)
  | .longstr s => 83 :: (encodeUInt 4 s.length ++ s)
  | .arr a => 65 :: (encodeUInt 4 (encodeArray a).length ++ encodeArray a)
  | .timestamp n => 84 :: encodeUInt 8 n
  | .table t => 70 :: (encodeUInt 4 (encodeEntries t).length ++ encodeEntries t)
  | .voidV => [86]
/-- Encode the entry list of a field table: `shortstr name | value` pairs. -/
def encodeEntries : FieldTable → List Nat
  | .nil => []
  | .cons name v rest => shortstrE name ++ encodeValue v ++ encodeEntries rest
/-- Encode the element list of a field array. -/
def encodeArray : FieldArray → List Nat
  | .anil => []
  | .acons v rest => encodeValue v ++ encodeArray rest
end

/-- Encode a field table: `u32 total_length` then the entries. -/
def encodeTable (t : FieldTable) : List Nat :=
  encodeUInt 4 (encodeEntries t).length ++ encodeEntries t

/-- Decode one non-recursive typed field value (every supported tag of
spec §4.1 except field-array `A` and nested table `F`); unknown tags fail
(`ProtocolError`). -/
def decodeSimple (tag : Nat) (bs : List Nat) : Option (FieldValue × List Nat) :=
  if tag = 116 then
    match bs with
    | 0 :: rest => some (.boolV false, rest)
    | 1 :: rest => some (.boolV true, rest)
    | _ => none
  else if tag = 98 then (decodeUInt 1 bs).map (fun p => (.i8 p.1, p.2))
  else if tag = 66 then (decodeUInt 1 bs).map (fun p => (.u8 p.1, p.2))
  else if tag = 115 then (decodeUInt 2 bs).map (fun p => (.i16 p.1, p.2))
  else if tag = 117 then (decodeUInt 2 bs).map (fun p => (.u16 p.1, p.2))
  else if tag = 73 then (decodeUInt 4 bs).map (fun p => (.i32 p.1, p.2))
  else if tag = 105 then (decodeUInt 4 bs).map (fun p => (.u32 p.1, p.2))
  else if tag = 108 then (decodeUInt 8 bs).map (fun p => (.i64 p.1, p.2))
  else if tag = 102 then (decodeUInt 4 bs).map (fun p => (.f32 p.1, p.2))
  else if tag = 100 then (decodeUInt 8 bs).map (fun p => (.f64 p.1, p.2))
  else if tag = 68 then
    match decodeUInt 1 bs with
    | some (s, r1) =>
        match decodeUInt 4 r1 with
        | some (v, r2) => some (.dec s v, r2)
        | none => none
    | none => none
  else if tag = 83 then
    match decodeUInt 4 bs with
    | some (n, r1) =>
        match takeExact n r1 with
        | some (s, rest) => some (.longstr s, rest)
        | none => none
    | none => none
  else if tag = 84 then (decodeUInt 8 bs).map (fun p => (.timestamp p.1, p.2))
  else if tag = 86 then some (.voidV, bs)
  else none

mutual
/-- Decode one typed field value (tag byte then typed payload): field
arrays and nested tables recurse with one unit of `fuel`, every other tag
is delegated to `decodeSimple`. -/
def decodeValue : Nat → List Nat → Option (FieldValue × List Nat)
  | 0, _ => none
  | _ + 1, [] => none
  | fuel + 1, tag :: bs =>
      if tag = 65 then
        match decodeUInt 4 bs with
        | some (n, r1) =>
            match takeExact n r1 with
            | some (content, rest) =>
                match decodeArrayElems fuel content with
                | some a => some (.arr a, rest)
                | none => none
            | none => none
        | none => none
      else if tag = 70 then
        match decodeUInt 4 bs with
        | some (n, r1) =>
            match takeExact n r1 with
            | some (content, rest) =>
                match decodeEntries fuel content with
                | some t => some (.table t, rest)
                | none => none
            | none => none
        | none => none
      else decodeSimple tag bs
/-- Decode field-table entries until the input is exhausted. -/
def decodeEntries : Nat → List Nat → Option FieldTable
  | _, [] => some .nil
  | 0, _ :: _ => none
  | fuel + 1, b :: bs =>
      match decodeShortstr (b :: bs) with
      | some (name, r1) =>
          match decodeValue fuel r1 with
          | some (v, r2) =>
              match decodeEntries fuel r2 with
              | some t => some (.cons name v t)
              | none => none
          | none => none
      | none => none
/-- Decode field-array elements until the input is exhausted. -/
def decodeArrayElems : Nat → List Nat → Option FieldArray
  | _, [] => some .anil
  | 0, _ :: _ => none
  | fuel + 1, b :: bs =>
      match decodeValue fuel (b :: bs) with
      | some (v, r1) =>
          match decodeArrayElems fuel r1 with
          | some a => some (.acons v a)
          | none => none
      | none => none
end

/-- Decode a field table: `u32 total_length`, exactly that many content
bytes, which must decode to entries exactly. -/
def decodeTable (bs : List Nat) : Option (FieldTable × List Nat) :=
  match decodeUInt 4 bs with
  | some (n, r1) =>
      match takeExact n r1 with
      | some (content, rest) =>
          match decodeEntries content.length content with
          | some t => some (t, rest)
          | none => none
      | none => none
  | none => none

/-! ## Publish framing (spec §4.3) -/

/-- An outbound frame of the publish path: METHOD, HEADER (with the
declared body size) or BODY (with its payload bytes). -/
inductive FrameOut where
  | method (classId methodId : Nat) (args : List Nat)
  | header (classId : Nat) (bodySize : Nat)
  | body (payload : List Nat)
  deriving DecidableEq, Repr

/-- Split a body into maximal chunks of `sz` bytes (`sz = 0` degenerates to
a single chunk; publish framing always passes `frame_max − 8 > 0`). -/
def chunkBody (sz : Nat) (bs : List Nat) : List (List Nat) :=
  if h1 : bs = [] then []
  else if h2 : sz = 0 then [bs]
  else bs.take sz :: chunkBody sz (bs.drop sz)
  termination_by bs.length
  decreasing_by
    simp only [List.length_drop]
    have : 0 < bs.length := List.length_pos.mpr h1
    omega

/-- The sizes of the chunks `chunkBody` produces, as a function of the body
length alone. -/
def chunkSizes (sz L : Nat) : List Nat :=
  if L = 0 then []
  else if h : sz = 0 then [L]
  else min sz L :: chunkSizes sz (L - sz)
  termination_by L
  decreasing_by omega

/-- Modelled from the spec: §4.3 framing of the missing `basicPublish`
implementation. One METHOD frame (`basic.publish`, class 60 method 40),
one HEADER frame (class 60, bodySize = L), then the body split into BODY
frames of at most `frame_max − 8` bytes; an empty body yields no BODY
frame. -/
def basicPublishFrames (exchange routingKey : List Nat) (body : List Nat)
    (frameMax : Nat) : List FrameOut :=
  FrameOut.method 60 40 (encodeUInt 2 0 ++ shortstrE exchange ++ shortstrE routingKey)
    :: FrameOut.header 60 body.length
    :: (chunkBody (frameMax - 8) body).map FrameOut.body

/-! ## QoS and prefetch (spec §4.5) -/

/-- The `basic.qos` method frame: class 60, method 10, then prefetch-size
(u32), prefetch-count (u16) and the global bit. -/
def basicQosFrame (prefetchCount prefetchSize : Nat) (global : Bool) : List Nat :=
  encodeUInt 2 60 ++ encodeUInt 2 10 ++ encodeUInt 4 prefetchSize ++
    encodeUInt 2 prefetchCount ++ [if global then 1 else 0]

/-- Modelled from the spec: §4.5 `basicQos`, a wrapper over the RPC engine
sending the `basic.qos` frame. -/
def basicQos (rpcId prefetchCount prefetchSize : Nat) (global : Bool)
    (ch : Channel) : Channel × List (List Nat) × Option AMQPError :=
  sendRpc rpcId (basicQosFrame prefetchCount prefetchSize global) ch

/-- Modelled from the spec: the `prefetch` alias of the missing channel
implementation, written out independently of `basicQos`: it sends a
`basic.qos` frame with prefetch-size 0, prefetch-count `n` and the global
bit clear, through the RPC engine. -/
def prefetch (rpcId n : Nat) (ch : Channel) :
    Channel × List (List Nat) × Option AMQPError :=
  sendRpc rpcId
    (encodeUInt 2 60 ++ encodeUInt 2 10 ++ encodeUInt 4 0 ++ encodeUInt 2 n ++ [0]) ch

/-! ## The queue facade (`amqp-queue.d.ts`) -/

/-- Modelled from the spec: the `AMQPQueue` convenience handle of
`amqp-queue.d.ts`, whose implementation file is missing. Both fields are
declared `readonly` in the source; the channel reference is modelled by the
channel id. -/
structure AMQPQueue where
  channel : Nat
  name : List Nat
  deriving DecidableEq, Repr

/-- The `queue.bind` method frame (class 50, method 20). -/
def queueBindFrame (queue exchange routingKey : List Nat) : List Nat :=
  encodeUInt 2 50 ++ encodeUInt 2 20 ++ encodeUInt 2 0 ++ shortstrE queue ++
    shortstrE exchange ++ shortstrE routingKey

/-- The `queue.unbind` method frame (class 50, method 50). -/
def queueUnbindFrame (queue exchange routingKey : List Nat) : List Nat :=
  encodeUInt 2 50 ++ encodeUInt 2 50 ++ encodeUInt 2 0 ++ shortstrE queue ++
    shortstrE exchange ++ shortstrE routingKey

/-- The `queue.delete` method frame (class 50, method 40). -/
def queueDeleteFrame (queue : List Nat) : List Nat :=
  encodeUInt 2 50 ++ encodeUInt 2 40 ++ encodeUInt 2 0 ++ shortstrE queue

/-- The `basic.cancel` method frame (class 60, method 30). -/
def basicCancelFrame (consumerTag : List Nat) : List Nat :=
  encodeUInt 2 60 ++ encodeUInt 2 30 ++ shortstrE consumerTag

/-- Modelled from the spec: `AMQPQueue.bind` delegates to the channel's
`queueBind` RPC and resolves with the queue handle itself. -/
def AMQPQueue.bind (q : AMQPQueue) (exchange routingKey : List Nat)
    (rpcId : Nat) (ch : Channel) :
    (Channel × List (List Nat) × Option AMQPError) × AMQPQueue :=
  (sendRpc rpcId (queueBindFrame q.name exchange routingKey) ch, q)

/-- Modelled from the spec: `AMQPQueue.unbind` delegates to the channel's
`queueUnbind` RPC and resolves with the queue handle itself. -/
def AMQPQueue.unbind (q : AMQPQueue) (exchange routingKey : List Nat)
    (rpcId : Nat) (ch : Channel) :
    (Channel × List (List Nat) × Option AMQPError) × AMQPQueue :=
  (sendRpc rpcId (queueUnbindFrame q.name exchange routingKey) ch, q)

/-- Modelled from the spec: `AMQPQueue.publish` delegates to the channel's
`basicPublish` (default exchange, the queue name as routing key) and
resolves with the queue handle itself. -/
def AMQPQueue.publish (q : AMQPQueue) (body : List Nat) (frameMax : Nat) :
    List FrameOut × AMQPQueue :=
  (basicPublishFrames [] q.name body frameMax, q)

/-- Modelled from the spec: `AMQPQueue.unsubscribe` delegates to the
channel's `basicCancel` RPC and resolves with the queue handle itself. -/
def AMQPQueue.unsubscribe (q : AMQPQueue) (consumerTag : List Nat)
    (rpcId : Nat) (ch : Channel) :
    (Channel × List (List Nat) × Option AMQPError) × AMQPQueue :=
  (sendRpc rpcId (basicCancelFrame consumerTag) ch, q)

/-- Modelled from the spec: `AMQPQueue.delete` delegates to the channel's
`queueDelete` RPC and resolves with the queue handle itself. -/
def AMQPQueue.delete (q : AMQPQueue) (rpcId : Nat) (ch : Channel) :
    (Channel × List (List Nat) × Option AMQPError) × AMQPQueue :=
  (sendRpc rpcId (queueDeleteFrame q.name) ch, q)

/-! ## Theorems -/

/-- C4: every `send_rpc` call (and hence every Channel API operation built
on it, all of which pass through `sendRpc` with their method frame) made
while the channel is closed fails immediately with `ChannelClosed`, appends
nothing to `pending_rpcs` and writes no frame. -/
theorem sendRpc_closed_rejects (ch : Channel) (rpcId : Nat) (frame : List Nat)
    (h : ch.closed = true) :
    sendRpc rpcId frame ch = (ch, [], some AMQPError.channelClosed) := by
  simp [sendRpc, h]

/-- Witness for C4 at a concrete closed channel. -/
theorem sendRpc_closed_rejects_witness :
    (Channel.mk true [3] [(1, 2)] 5 []).closed = true ∧
    sendRpc 7 [60, 10] (Channel.mk true [3] [(1, 2)] 5 [])
      = (Channel.mk true [3] [(1, 2)] 5 [], [], some AMQPError.channelClosed) :=
  ⟨rfl, sendRpc_closed_rejects (Channel.mk true [3] [(1, 2)] 5 []) 7 [60, 10] rfl⟩

/-- C6: a `basic.ack`/`basic.nack` with `multiple=false` whose delivery tag
has no entry in the unconfirmed-publish map raises `ProtocolError` and
leaves the channel unchanged. -/
theorem publishConfirmed_missing_tag (ch : Channel) (tag : Nat) (nack : Bool)
    (h : ∀ e ∈ ch.unconfirmed, e.1 ≠ tag) :
    publishConfirmed tag false nack ch = (ch, [Event.error AMQPError.protocolError]) := by
  have hf : ch.unconfirmed.find? (fun e => e.1 == tag) = none := by
    rw [List.find?_eq_none]
    intro e he
    simpa using h e he
  simp [publishConfirmed, hf]

/-- Witness for C6: tag 3 is absent from an unconfirmed map holding tag 1. -/
theorem publishConfirmed_missing_tag_witness :
    (∀ e ∈ (Channel.mk false [] [(1, 10)] 2 []).unconfirmed, e.1 ≠ 3) ∧
    publishConfirmed 3 false false (Channel.mk false [] [(1, 10)] 2 [])
      = (Channel.mk false [] [(1, 10)] 2 [], [Event.error AMQPError.protocolError]) :=
  ⟨by decide, publishConfirmed_missing_tag (Channel.mk false [] [(1, 10)] 2 []) 3 false (by decide)⟩

/-- C9: `resolvePromise` and `rejectPromise` return `true` exactly when
`pending_rpcs` was nonempty; on `false` they complete no continuation and
leave the state unchanged. -/
theorem resolvePromise_true_iff (ch : Channel) :
    ((resolvePromise ch).2.2 = true ↔ ch.pendingRpcs ≠ []) ∧
    ((rejectPromise ch).2.2 = true ↔ ch.pendingRpcs ≠ []) ∧
    ((resolvePromise ch).2.2 = false → resolvePromise ch = (ch, [], false)) ∧
    ((rejectPromise ch).2.2 = false → rejectPromise ch = (ch, [], false)) := by
  obtain ⟨c, p, u, ci, co⟩ := ch
  cases p <;> simp [resolvePromise, rejectPromise]

/-- Witness for C9 at concrete channels (one with a pending RPC, via the
theorem; the empty case is definitional inside the applied statement). -/
theorem resolvePromise_true_iff_witness :
    ((resolvePromise (Channel.mk false [] [] 0 [])).2.2 = true ↔
      (Channel.mk false [] [] 0 []).pendingRpcs ≠ []) ∧
    ((rejectPromise (Channel.mk false [] [] 0 [])).2.2 = true ↔
      (Channel.mk false [] [] 0 []).pendingRpcs ≠ []) ∧
    ((resolvePromise (Channel.mk false [] [] 0 [])).2.2 = false →
      resolvePromise (Channel.mk false [] [] 0 [])
        = (Channel.mk false [] [] 0 [], [], false)) ∧
    ((rejectPromise (Channel.mk false [] [] 0 [])).2.2 = false →
      rejectPromise (Channel.mk false [] [] 0 [])
        = (Channel.mk false [] [] 0 [], [], false)) :=
  resolvePromise_true_iff (Channel.mk false [] [] 0 [])

/-- C8: `prefetch(n)` is observationally `basicQos(n, 0, false)`: the same
state change, the same frame bytes written, the same immediate outcome. -/
theorem prefetch_eq_basicQos (rpcId n : Nat) (ch : Channel) :
    prefetch rpcId n ch = basicQos rpcId n 0 false ch := rfl

/-- C10: every queue-facade operation that resolves with a queue handle
resolves with the very same `AMQPQueue`, so its `channel` and `name` fields
are unchanged. -/
theorem queue_ops_resolve_same_queue (q : AMQPQueue) (ex rk ctag body : List Nat)
    (frameMax rpcId : Nat) (ch : Channel) :
    (q.bind ex rk rpcId ch).2 = q ∧
    (q.unbind ex rk rpcId ch).2 = q ∧
    (q.publish body frameMax).2 = q ∧
    (q.unsubscribe ctag rpcId ch).2 = q ∧
    (q.delete rpcId ch).2 = q ∧
    (q.bind ex rk rpcId ch).2.channel = q.channel ∧
    (q.bind ex rk rpcId ch).2.name = q.name :=
  ⟨rfl, rfl, rfl, rfl, rfl, rfl, rfl⟩

/-- Driving `resolvePromise` to exhaustion completes the pending
continuations exactly in FIFO order. -/
theorem drainAll_fifo (l : List Nat) : ∀ ch : Channel, ch.pendingRpcs = l →
    drainAll l.length ch = l.map Event.rpcResolve := by
  induction l with
  | nil =>
      intro ch h
      simp [drainAll]
  | cons a l ih =>
      intro ch h
      obtain ⟨c, p, u, ci, co⟩ := ch
      simp only at h
      subst h
      simp only [List.length_cons, drainAll, resolvePromise, if_true]
      rw [ih { closed := c, pendingRpcs := l, unconfirmed := u, confirmId := ci,
               consumers := co } rfl]
      simp

/-- C2: two RPCs issued in order on the same open channel join the FIFO in
that order, and the inbound path (which completes exactly the head each
time) therefore matches A's reply strictly before B's. -/
theorem rpc_fifo_order (ch ch2 : Channel) (a b : Nat) (fa fb : List Nat)
    (hopen : ch.closed = false)
    (h2 : ch2 = (sendRpc b fb (sendRpc a fa ch).1).1) :
    drainAll ch2.pendingRpcs.length ch2
      = ch.pendingRpcs.map Event.rpcResolve
        ++ [Event.rpcResolve a, Event.rpcResolve b] ∧
    ∃ pre post, drainAll ch2.pendingRpcs.length ch2
        = pre ++ Event.rpcResolve a :: post ∧ Event.rpcResolve b ∈ post := by
  have hch2 : ch2.pendingRpcs = ch.pendingRpcs ++ [a, b] := by
    subst h2
    simp [sendRpc, hopen]
  have hd : drainAll ch2.pendingRpcs.length ch2
      = (ch.pendingRpcs ++ [a, b]).map Event.rpcResolve := by
    rw [hch2]
    exact drainAll_fifo (ch.pendingRpcs ++ [a, b]) ch2 hch2
  refine ⟨by simpa using hd, ch.pendingRpcs.map Event.rpcResolve, [Event.rpcResolve b], ?_, ?_⟩
  · simpa using hd
  · simp

/-- Witness for C2: issue RPCs 3 then 4 on a fresh open channel. -/
theorem rpc_fifo_order_witness :
    (Channel.mk false [] [] 0 []).closed = false ∧
    (drainAll (Channel.mk false [3, 4] [] 0 []).pendingRpcs.length
        (Channel.mk false [3, 4] [] 0 [])
      = (Channel.mk false [] [] 0 []).pendingRpcs.map Event.rpcResolve
        ++ [Event.rpcResolve 3, Event.rpcResolve 4] ∧
     ∃ pre post, drainAll (Channel.mk false [3, 4] [] 0 []).pendingRpcs.length
        (Channel.mk false [3, 4] [] 0 [])
        = pre ++ Event.rpcResolve 3 :: post ∧ Event.rpcResolve 4 ∈ post) :=
  ⟨rfl, rpc_fifo_order (Channel.mk false [] [] 0 []) (Channel.mk false [3, 4] [] 0 [])
    3 4 [] [] rfl rfl⟩

/-- On a strictly ascending tag list, taking from the head while `≤ T`
collects exactly the entries `≤ T`. -/
theorem sorted_takeWhile_le (T : Nat) :
    ∀ l : List (Nat × Nat), l.Pairwise (fun a b => a.1 < b.1) →
      l.takeWhile (fun e => e.1 ≤ T) = l.filter (fun e => e.1 ≤ T) ∧
      l.dropWhile (fun e => e.1 ≤ T) = l.filter (fun e => ¬ e.1 ≤ T) := by
  intro l hl
  induction l with
  | nil => simp
  | cons a l ih =>
      obtain ⟨ha, hl'⟩ := List.pairwise_cons.mp hl
      obtain ⟨iht, ihd⟩ := ih hl'
      by_cases hle : a.1 ≤ T
      · simp [List.takeWhile_cons, List.dropWhile_cons, hle, iht, ihd]
      · have hgt : ∀ b ∈ l, ¬ b.1 ≤ T := by
          intro b hb
          have := ha b hb
          omega
        constructor
        · rw [List.takeWhile_cons]
          simp only [hle, decide_eq_true_eq, if_false]
          symm
          rw [List.filter_eq_nil_iff]
          intro b hb
          rcases List.mem_cons.mp hb with hb | hb
          · subst hb; simpa using hle
          · simpa using hgt b hb
        · rw [List.dropWhile_cons]
          simp only [hle, decide_eq_true_eq, if_false]
          symm
          rw [List.filter_cons_of_pos (by simpa using hle)]
          congr 1
          rw [List.filter_eq_self]
          intro b hb
          simpa using hgt b hb

/-- C1: a confirm with `multiple=true` and tag `T` on a channel whose
unconfirmed map has strictly ascending keys settles (resolves on ack,
rejects on nack) exactly the entries with key ≤ T, in ascending key order
and each exactly once, and afterwards the map holds no entry with key ≤ T
(exactly the entries with key > T remain). -/
theorem publishConfirmed_multiple_spec (ch : Channel) (T : Nat) (nack : Bool)
    (hs : UnconfirmedSorted ch) :
    (publishConfirmed T true nack ch).2
      = (ch.unconfirmed.filter (fun e => e.1 ≤ T)).map
          (fun e => if nack then Event.pubReject e.1 e.2 else Event.pubResolve e.1 e.2) ∧
    (publishConfirmed T true nack ch).1.unconfirmed
      = ch.unconfirmed.filter (fun e => ¬ e.1 ≤ T) ∧
    ((publishConfirmed T true nack ch).2.map confirmTag).Pairwise (· < ·) ∧
    (∀ e ∈ (publishConfirmed T true nack ch).1.unconfirmed, T < e.1) := by
  obtain ⟨ht, hd⟩ := sorted_takeWhile_le T ch.unconfirmed hs
  have hev : (publishConfirmed T true nack ch).2
      = (ch.unconfirmed.filter (fun e => e.1 ≤ T)).map (settleEvent nack) := by
    simp [publishConfirmed, ht]
  have hrem : (publishConfirmed T true nack ch).1.unconfirmed
      = ch.unconfirmed.filter (fun e => ¬ e.1 ≤ T) := by
    simp [publishConfirmed, hd]
  refine ⟨?_, hrem, ?_, ?_⟩
  · rw [hev]
    apply List.map_congr_left
    intro e _
    cases nack <;> simp [settleEvent]
  · rw [hev, List.map_map]
    have hcomp : confirmTag ∘ settleEvent nack = fun e : Nat × Nat => e.1 := by
      funext e
      cases nack <;> simp [settleEvent, confirmTag]
    rw [hcomp]
    refine List.Pairwise.map _ (fun a b h => h) ?_
    exact List.Pairwise.sublist (List.filter_sublist _) hs
  · intro e he
    rw [hrem] at he
    have := List.of_mem_filter he
    simpa using this

/-- Witness for C1: tags 1,2,3 pending, ack with `multiple=true` at tag 2. -/
theorem publishConfirmed_multiple_spec_witness :
    UnconfirmedSorted (Channel.mk false [] [(1, 10), (2, 11), (3, 12)] 4 []) ∧
    ((publishConfirmed 2 true false (Channel.mk false [] [(1, 10), (2, 11), (3, 12)] 4 [])).2
      = ((Channel.mk false [] [(1, 10), (2, 11), (3, 12)] 4 []).unconfirmed.filter
          (fun e => e.1 ≤ 2)).map
          (fun e => if false then Event.pubReject e.1 e.2 else Event.pubResolve e.1 e.2) ∧
    (publishConfirmed 2 true false
        (Channel.mk false [] [(1, 10), (2, 11), (3, 12)] 4 [])).1.unconfirmed
      = (Channel.mk false [] [(1, 10), (2, 11), (3, 12)] 4 []).unconfirmed.filter
          (fun e => ¬ e.1 ≤ 2) ∧
    ((publishConfirmed 2 true false
        (Channel.mk false [] [(1, 10), (2, 11), (3, 12)] 4 [])).2.map confirmTag).Pairwise
        (· < ·) ∧
    (∀ e ∈ (publishConfirmed 2 true false
        (Channel.mk false [] [(1, 10), (2, 11), (3, 12)] 4 [])).1.unconfirmed, 2 < e.1)) :=
  ⟨by simp [UnconfirmedSorted],
   publishConfirmed_multiple_spec (Channel.mk false [] [(1, 10), (2, 11), (3, 12)] 4 [])
     2 false (by simp [UnconfirmedSorted])⟩

/-- No modelled transition ever clears the closed flag. -/
theorem step_preserves_closed {c c' : Channel} (h : Step c c') :
    c.closed = true → c'.closed = true := by
  intro hc
  cases h with
  | sendRpc id frame => simp [sendRpc, hc]
  | resolvePromise =>
      obtain ⟨cl, p, u, ci, co⟩ := c
      cases p <;> simp_all [resolvePromise]
  | rejectPromise =>
      obtain ⟨cl, p, u, ci, co⟩ := c
      cases p <;> simp_all [rejectPromise]
  | publishConfirmed tag m n =>
      unfold publishConfirmed
      split
      · simpa using hc
      · cases hf : c.unconfirmed.find? (fun e => e.1 == tag) <;> simpa [hf] using hc
  | setClosed => rfl
  | consumeOk tag =>
      obtain ⟨cl, p, u, ci, co⟩ := c
      cases p <;> simp_all [consumeOk]

/-- No modelled transition disturbs the fully-drained closed state. -/
theorem step_preserves_drained {c c' : Channel} (h : Step c c') :
    ClosedDrained c → ClosedDrained c' := by
  rintro ⟨hc, hp, hu, hco⟩
  cases h with
  | sendRpc id frame =>
      have heq : (sendRpc id frame c).1 = c := by simp [sendRpc, hc]
      rw [heq]
      exact ⟨hc, hp, hu, hco⟩
  | resolvePromise =>
      obtain ⟨cl, p, u, ci, co⟩ := c
      simp only at hp
      subst hp
      exact ⟨hc, rfl, hu, hco⟩
  | rejectPromise =>
      obtain ⟨cl, p, u, ci, co⟩ := c
      simp only at hp
      subst hp
      exact ⟨hc, rfl, hu, hco⟩
  | publishConfirmed tag m n =>
      obtain ⟨cl, p, u, ci, co⟩ := c
      simp only at hu
      subst hu
      cases m <;> simp_all [publishConfirmed, ClosedDrained]
  | setClosed =>
      refine ⟨rfl, rfl, rfl, ?_⟩
      intro x hx
      simp only [setClosed, List.mem_map] at hx
      obtain ⟨y, _, hy⟩ := hx
      simpa using congrArg Prod.snd hy.symm
  | consumeOk tag =>
      obtain ⟨cl, p, u, ci, co⟩ := c
      simp only at hp
      subst hp
      exact ⟨hc, rfl, hu, hco⟩

/-- Predicates preserved by every step are preserved along reachability. -/
theorem reachable_preserves {P : Channel → Prop}
    (hP : ∀ {c c' : Channel}, Step c c' → P c → P c') {c c' : Channel}
    (h : Reachable c c') : P c → P c' := by
  induction h with
  | refl => exact id
  | tail _ hstep ih => exact fun hc => hP hstep (ih hc)

/-- C3: the closed flag is monotone along every modelled transition
sequence, `setClosed` rejects every pending RPC and every unconfirmed
publish, and every state reachable after `setClosed` stays fully drained:
closed, no pending RPC, no unconfirmed publish, every consumer marked
closed, and every `send_rpc` attempt fails with `ChannelClosed` without
registering anything. -/
theorem setClosed_invariant (ch ch' : Channel)
    (hreach : Reachable (setClosed ch).1 ch') :
    (∀ c c' : Channel, Reachable c c' → c.closed = true → c'.closed = true) ∧
    (setClosed ch).2
      = ch.pendingRpcs.map Event.rpcReject
        ++ ch.unconfirmed.map (fun e => Event.pubReject e.1 e.2) ∧
    ClosedDrained ch' ∧
    (∀ rpcId frame, sendRpc rpcId frame ch' = (ch', [], some AMQPError.channelClosed)) := by
  have hdrained : ClosedDrained ch' := by
    refine reachable_preserves (fun hs => step_preserves_drained hs) hreach ?_
    refine ⟨rfl, rfl, rfl, ?_⟩
    intro x hx
    simp only [setClosed, List.mem_map] at hx
    obtain ⟨y, _, hy⟩ := hx
    simpa using congrArg Prod.snd hy.symm
  refine ⟨?_, rfl, hdrained, ?_⟩
  · intro c c' hr
    exact reachable_preserves (fun hs => step_preserves_closed hs) hr
  · intro rpcId frame
    simp [sendRpc, hdrained.1]

/-- Witness for C3: close a channel with one pending RPC, one unconfirmed
publish and one consumer; the closed state itself is reachable. -/
theorem setClosed_invariant_witness :
    Reachable (setClosed (Channel.mk false [7] [(1, 9)] 2 [("t", false)])).1
      (setClosed (Channel.mk false [7] [(1, 9)] 2 [("t", false)])).1 ∧
    ((∀ c c' : Channel, Reachable c c' → c.closed = true → c'.closed = true) ∧
     (setClosed (Channel.mk false [7] [(1, 9)] 2 [("t", false)])).2
       = (Channel.mk false [7] [(1, 9)] 2 [("t", false)]).pendingRpcs.map Event.rpcReject
         ++ (Channel.mk false [7] [(1, 9)] 2 [("t", false)]).unconfirmed.map
             (fun e => Event.pubReject e.1 e.2) ∧
     ClosedDrained (setClosed (Channel.mk false [7] [(1, 9)] 2 [("t", false)])).1 ∧
     (∀ rpcId frame, sendRpc rpcId frame
         (setClosed (Channel.mk false [7] [(1, 9)] 2 [("t", false)])).1
       = ((setClosed (Channel.mk false [7] [(1, 9)] 2 [("t", false)])).1, [],
          some AMQPError.channelClosed))) :=
  ⟨Relation.ReflTransGen.refl,
   setClosed_invariant (Channel.mk false [7] [(1, 9)] 2 [("t", false)]) _
     Relation.ReflTransGen.refl⟩

/-- Concatenating the body chunks restores the body. -/
theorem chunkBody_join_aux (sz : Nat) :
    ∀ (n : Nat) (bs : List Nat), bs.length ≤ n → (chunkBody sz bs).flatten = bs := by
  intro n
  induction n with
  | zero =>
      intro bs h
      have hb : bs = [] := List.eq_nil_of_length_eq_zero (Nat.le_zero.mp h)
      subst hb
      rw [chunkBody]
      simp
  | succ n ih =>
      intro bs h
      rw [chunkBody]
      by_cases h1 : bs = []
      · simp [h1]
      · rw [dif_neg h1]
        by_cases h2 : sz = 0
        · simp [h2]
        · rw [dif_neg h2]
          have hlen : (bs.drop sz).length ≤ n := by
            have hpos : 0 < bs.length := List.length_pos.mpr h1
            simp only [List.length_drop]
            omega
          simp only [List.flatten_cons, ih (bs.drop sz) hlen]
          exact List.take_append_drop sz bs

/-- The chunk sizes of a body depend only on its length. -/
theorem chunkBody_sizes_aux (sz : Nat) :
    ∀ (n : Nat) (bs : List Nat), bs.length ≤ n →
      (chunkBody sz bs).map List.length = chunkSizes sz bs.length := by
  intro n
  induction n with
  | zero =>
      intro bs h
      have hb : bs = [] := List.eq_nil_of_length_eq_zero (Nat.le_zero.mp h)
      subst hb
      rw [chunkBody, chunkSizes]
      simp
  | succ n ih =>
      intro bs h
      rw [chunkBody, chunkSizes]
      by_cases h1 : bs = []
      · simp [h1]
      · have hpos : 0 < bs.length := List.length_pos.mpr h1
        rw [dif_neg h1, if_neg (by omega)]
        by_cases h2 : sz = 0
        · simp [h2]
        · rw [dif_neg h2, dif_neg h2]
          have hlen : (bs.drop sz).length ≤ n := by
            simp only [List.length_drop]
            omega
          simp only [List.map_cons, List.length_take, ih (bs.drop sz) hlen,
            List.length_drop]

/-- The number of chunks is the ceiling of length over chunk size. -/
theorem chunkSizes_length_aux (sz : Nat) (hsz : 0 < sz) :
    ∀ (n L : Nat), L ≤ n → (chunkSizes sz L).length = (L + sz - 1) / sz := by
  intro n
  induction n with
  | zero =>
      intro L h
      have hL : L = 0 := Nat.le_zero.mp h
      subst hL
      rw [chunkSizes, if_pos rfl, Nat.div_eq_of_lt (show 0 + sz - 1 < sz by omega)]
      simp
  | succ n ih =>
      intro L h
      rw [chunkSizes]
      by_cases hL : L = 0
      · subst hL
        rw [if_pos rfl, Nat.div_eq_of_lt (show 0 + sz - 1 < sz by omega)]
        simp
      · rw [if_neg hL, dif_neg (by omega : ¬ sz = 0)]
        have hrec : (chunkSizes sz (L - sz)).length = (L - sz + sz - 1) / sz :=
          ih (L - sz) (by omega)
        simp only [List.length_cons, hrec]
        by_cases hle : L ≤ sz
        · have h0 : L - sz = 0 := by omega
          rw [h0]
          have hnum : L + sz - 1 = (L - 1) + sz := by omega
          rw [hnum, Nat.add_div_right _ hsz,
            Nat.div_eq_of_lt (by omega : 0 + sz - 1 < sz),
            Nat.div_eq_of_lt (by omega : L - 1 < sz)]
        · have hnum1 : L - sz + sz - 1 = L - 1 := by omega
          have hnum2 : L + sz - 1 = (L - 1) + sz := by omega
          rw [hnum1, hnum2, Nat.add_div_right _ hsz]


/-- C5: a publish of a body of length L under the negotiated `frame_max`
emits exactly one METHOD frame, one HEADER frame declaring bodySize = L and
⌈L/(frame_max−8)⌉ BODY frames (none when L = 0) whose payloads
concatenate back to the body; with frame_max 4096 and L 10000 the BODY
payload sizes are 4088, 4088, 1824. -/
theorem basicPublish_framing (ex rk body : List Nat) (frameMax : Nat)
    (h : 8 < frameMax) :
    basicPublishFrames ex rk body frameMax
      = FrameOut.method 60 40 (encodeUInt 2 0 ++ shortstrE ex ++ shortstrE rk)
        :: FrameOut.header 60 body.length
        :: (chunkBody (frameMax - 8) body).map FrameOut.body ∧
    (chunkBody (frameMax - 8) body).length
      = (body.length + (frameMax - 8) - 1) / (frameMax - 8) ∧
    (body = [] → chunkBody (frameMax - 8) body = []) ∧
    (chunkBody (frameMax - 8) body).map List.length
      = chunkSizes (frameMax - 8) body.length ∧
    (chunkBody (frameMax - 8) body).flatten = body ∧
    chunkSizes 4088 10000 = [4088, 4088, 1824] := by
  have hsz : 0 < frameMax - 8 := by omega
  have hsizes := chunkBody_sizes_aux (frameMax - 8) body.length body le_rfl
  refine ⟨rfl, ?_, ?_, hsizes,
    chunkBody_join_aux (frameMax - 8) body.length body le_rfl, ?_⟩
  · have hlm := congrArg List.length hsizes
    rw [List.length_map] at hlm
    rw [hlm]
    exact chunkSizes_length_aux (frameMax - 8) hsz body.length body.length le_rfl
  · intro hb
    subst hb
    rw [chunkBody]
    simp
  · rw [chunkSizes, if_neg (by norm_num), dif_neg (by norm_num)]
    rw [show (10000 : Nat) - 4088 = 5912 by norm_num]
    rw [chunkSizes, if_neg (by norm_num), dif_neg (by norm_num)]
    rw [show (5912 : Nat) - 4088 = 1824 by norm_num]
    rw [chunkSizes, if_neg (by norm_num), dif_neg (by norm_num)]
    rw [show (1824 : Nat) - 4088 = 0 by norm_num]
    rw [chunkSizes, if_pos rfl]
    norm_num

/-- Witness for C5: body `[0,1,2]` with frame_max 10 splits into chunks of
at most 2 bytes. -/
theorem basicPublish_framing_witness :
    8 < 10 ∧
    ((chunkBody 2 [0, 1, 2]).map List.length = chunkSizes 2 3 ∧
     (chunkBody 2 [0, 1, 2]).flatten = [0, 1, 2]) :=
  ⟨by norm_num,
   ⟨(basicPublish_framing [] [] [0, 1, 2] 10 (by norm_num)).2.2.2.1,
    (basicPublish_framing [] [] [0, 1, 2] 10 (by norm_num)).2.2.2.2.1⟩⟩

/-- A successful big-endian decode is inverted by the big-endian encode. -/
theorem decodeUInt_sound :
    ∀ (k : Nat) (bs : List Nat) (n : Nat) (rest : List Nat),
      decodeUInt k bs = some (n, rest) → n < 256 ^ k ∧ bs = encodeUInt k n ++ rest := by
  intro k
  induction k with
  | zero =>
      intro bs n rest h
      simp only [decodeUInt, Option.some.injEq, Prod.mk.injEq] at h
      obtain ⟨hn, hr⟩ := h
      subst hn
      subst hr
      simp [encodeUInt]
  | succ k ih =>
      intro bs n rest h
      match bs with
      | [] => simp [decodeUInt] at h
      | b :: bs' =>
          simp only [decodeUInt] at h
          by_cases hb : b < 256
          · rw [if_pos hb] at h
            obtain ⟨⟨m, r⟩, hm, heq⟩ := Option.map_eq_some'.mp h
            simp only [Prod.mk.injEq] at heq
            obtain ⟨hn, hr⟩ := heq
            subst hn
            subst hr
            obtain ⟨hmlt, hbs⟩ := ih bs' m r hm
            have hP : 0 < 256 ^ k := Nat.pos_pow_of_pos k (by norm_num)
            constructor
            · have h1 : b * 256 ^ k + m < (b + 1) * 256 ^ k := by
                rw [Nat.add_one_mul]
                omega
              have h2 : (b + 1) * 256 ^ k ≤ 256 * 256 ^ k :=
                Nat.mul_le_mul_right _ (Nat.succ_le_of_lt hb)
              calc b * 256 ^ k + m < (b + 1) * 256 ^ k := h1
                _ ≤ 256 * 256 ^ k := h2
                _ = 256 ^ (k + 1) := by rw [Nat.pow_succ, Nat.mul_comm]
            · have hdiv : (b * 256 ^ k + m) / 256 ^ k = b := by
                rw [Nat.mul_comm, Nat.mul_add_div hP, Nat.div_eq_of_lt hmlt]
                omega
              have hmod : (b * 256 ^ k + m) % 256 ^ k = m := by
                rw [Nat.mul_comm b (256 ^ k), Nat.mul_add_mod, Nat.mod_eq_of_lt hmlt]
              rw [encodeUInt, hdiv, hmod, Nat.mod_eq_of_lt hb, hbs]
              rfl
          · rw [if_neg hb] at h
            simp at h

/-- A successful exact split is inverted by concatenation. -/
theorem takeExact_sound (n : Nat) (bs xs rest : List Nat)
    (h : takeExact n bs = some (xs, rest)) :
    xs.length = n ∧ bs = xs ++ rest := by
  unfold takeExact at h
  by_cases hn : n ≤ bs.length
  · rw [if_pos hn] at h
    simp only [Option.some.injEq, Prod.mk.injEq] at h
    obtain ⟨hx, hr⟩ := h
    subst hx
    subst hr
    refine ⟨?_, (List.take_append_drop n bs).symm⟩
    rw [List.length_take]
    omega
  · rw [if_neg hn] at h
    cases h

/-- A successful short-string decode is inverted by `shortstrE`. -/
theorem decodeShortstr_sound (bs s rest : List Nat)
    (h : decodeShortstr bs = some (s, rest)) :
    bs = shortstrE s ++ rest := by
  unfold decodeShortstr at h
  cases hu : decodeUInt 1 bs with
  | none => rw [hu] at h; cases h
  | some p =>
      obtain ⟨n, r1⟩ := p
      rw [hu] at h
      obtain ⟨hlen, hsplit⟩ := takeExact_sound n r1 s rest h
      obtain ⟨_, hbs⟩ := decodeUInt_sound 1 bs n r1 hu
      rw [hbs, hsplit, shortstrE, hlen]
      simp

/-- A successful fixed-width numeric field decode is inverted by
`encodeValue`, given that the constructor encodes as tag plus the
big-endian bytes. -/
theorem decodeNum_sound (k tag : Nat) (mk : Nat → FieldValue)
    (hmk : ∀ m, encodeValue (mk m) = tag :: encodeUInt k m)
    (bs : List Nat) (v : FieldValue) (rest : List Nat)
    (h : (decodeUInt k bs).map (fun p => (mk p.1, p.2)) = some (v, rest)) :
    tag :: bs = encodeValue v ++ rest := by
  obtain ⟨⟨m, r⟩, hm, heq⟩ := Option.map_eq_some'.mp h
  simp only [Prod.mk.injEq] at heq
  obtain ⟨hv, hr⟩ := heq
  subst hv
  subst hr
  obtain ⟨_, hbs⟩ := decodeUInt_sound k bs m r hm
  rw [hmk, hbs]
  rfl

/-- Every successful non-recursive field-value decode is inverted by the
encoder. -/
theorem decodeSimple_sound (tag : Nat) (bs : List Nat) (v : FieldValue)
    (rest : List Nat) (h : decodeSimple tag bs = some (v, rest)) :
    tag :: bs = encodeValue v ++ rest := by
  unfold decodeSimple at h
  by_cases h116 : tag = 116
  · rw [if_pos h116] at h
    subst h116
    split at h
    · simp only [Option.some.injEq, Prod.mk.injEq] at h
      obtain ⟨hv, hr⟩ := h
      subst hv
      subst hr
      simp [encodeValue, encodeUInt]
    · simp only [Option.some.injEq, Prod.mk.injEq] at h
      obtain ⟨hv, hr⟩ := h
      subst hv
      subst hr
      simp [encodeValue, encodeUInt]
    · exact Option.noConfusion h
  · rw [if_neg h116] at h
    by_cases h98 : tag = 98
    · rw [if_pos h98] at h
      subst h98
      exact decodeNum_sound 1 98 FieldValue.i8
        (fun m => by simp [encodeValue]) bs v rest h
    · rw [if_neg h98] at h
      by_cases h66 : tag = 66
      · rw [if_pos h66] at h
        subst h66
        exact decodeNum_sound 1 66 FieldValue.u8
          (fun m => by simp [encodeValue]) bs v rest h
      · rw [if_neg h66] at h
        by_cases h115 : tag = 115
        · rw [if_pos h115] at h
          subst h115
          exact decodeNum_sound 2 115 FieldValue.i16
            (fun m => by simp [encodeValue]) bs v rest h
        · rw [if_neg h115] at h
          by_cases h117 : tag = 117
          · rw [if_pos h117] at h
            subst h117
            exact decodeNum_sound 2 117 FieldValue.u16
              (fun m => by simp [encodeValue]) bs v rest h
          · rw [if_neg h117] at h
            by_cases h73 : tag = 73
            · rw [if_pos h73] at h
              subst h73
              exact decodeNum_sound 4 73 FieldValue.i32
                (fun m => by simp [encodeValue]) bs v rest h
            · rw [if_neg h73] at h
              by_cases h105 : tag = 105
              · rw [if_pos h105] at h
                subst h105
                exact decodeNum_sound 4 105 FieldValue.u32
                  (fun m => by simp [encodeValue]) bs v rest h
              · rw [if_neg h105] at h
                by_cases h108 : tag = 108
                · rw [if_pos h108] at h
                  subst h108
                  exact decodeNum_sound 8 108 FieldValue.i64
                    (fun m => by simp [encodeValue]) bs v rest h
                · rw [if_neg h108] at h
                  by_cases h102 : tag = 102
                  · rw [if_pos h102] at h
                    subst h102
                    exact decodeNum_sound 4 102 FieldValue.f32
                      (fun m => by simp [encodeValue]) bs v rest h
                  · rw [if_neg h102] at h
                    by_cases h100 : tag = 100
                    · rw [if_pos h100] at h
                      subst h100
                      exact decodeNum_sound 8 100 FieldValue.f64
                        (fun m => by simp [encodeValue]) bs v rest h
                    · rw [if_neg h100] at h
                      by_cases h68 : tag = 68
                      · rw [if_pos h68] at h
                        subst h68
                        split at h
                        · rename_i s r1 hu1
                          split at h
                          · rename_i vv r2 hu4
                            simp only [Option.some.injEq, Prod.mk.injEq] at h
                            obtain ⟨hv, hr⟩ := h
                            subst hv
                            subst hr
                            obtain ⟨_, hb1⟩ := decodeUInt_sound 1 bs s r1 hu1
                            obtain ⟨_, hb4⟩ := decodeUInt_sound 4 r1 vv r2 hu4
                            rw [hb1, hb4]
                            simp [encodeValue]
                          · exact Option.noConfusion h
                        · exact Option.noConfusion h
                      · rw [if_neg h68] at h
                        by_cases h83 : tag = 83
                        · rw [if_pos h83] at h
                          subst h83
                          split at h
                          · rename_i n r1 hu
                            split at h
                            · rename_i s r2 ht
                              simp only [Option.some.injEq, Prod.mk.injEq] at h
                              obtain ⟨hv, hr⟩ := h
                              subst hv
                              subst hr
                              obtain ⟨_, hbs⟩ := decodeUInt_sound 4 bs n r1 hu
                              obtain ⟨hlen, hsplit⟩ := takeExact_sound n r1 s r2 ht
                              rw [hbs, hsplit]
                              simp [encodeValue, hlen]
                            · exact Option.noConfusion h
                          · exact Option.noConfusion h
                        · rw [if_neg h83] at h
                          by_cases h84 : tag = 84
                          · rw [if_pos h84] at h
                            subst h84
                            exact decodeNum_sound 8 84 FieldValue.timestamp
                              (fun m => by simp [encodeValue]) bs v rest h
                          · rw [if_neg h84] at h
                            by_cases h86 : tag = 86
                            · rw [if_pos h86] at h
                              subst h86
                              simp only [Option.some.injEq, Prod.mk.injEq] at h
                              obtain ⟨hv, hr⟩ := h
                              subst hv
                              subst hr
                              simp [encodeValue]
                            · rw [if_neg h86] at h
                              exact Option.noConfusion h

/-- Every successful decode, at any fuel, is inverted by the encoder —
for field values, table entry lists and array element lists
simultaneously. -/
theorem decode_encode_sound :
    ∀ fuel : Nat,
      (∀ bs v rest, decodeValue fuel bs = some (v, rest) → bs = encodeValue v ++ rest) ∧
      (∀ bs t, decodeEntries fuel bs = some t → bs = encodeEntries t) ∧
      (∀ bs a, decodeArrayElems fuel bs = some a → bs = encodeArray a) := by
  intro fuel
  induction fuel with
  | zero =>
      refine ⟨?_, ?_, ?_⟩
      · intro bs v rest h
        rw [decodeValue] at h
        exact Option.noConfusion h
      · intro bs t h
        match bs with
        | [] =>
            rw [decodeEntries] at h
            injection h with h
            subst h
            rw [encodeEntries]
        | b :: bs' =>
            rw [decodeEntries] at h
            exact Option.noConfusion h
      · intro bs a h
        match bs with
        | [] =>
            rw [decodeArrayElems] at h
            injection h with h
            subst h
            rw [encodeArray]
        | b :: bs' =>
            rw [decodeArrayElems] at h
            exact Option.noConfusion h
  | succ fuel ih =>
      obtain ⟨ihv, ihe, iha⟩ := ih
      refine ⟨?_, ?_, ?_⟩
      · intro bs v rest h
        match bs with
        | [] =>
            rw [decodeValue] at h
            exact Option.noConfusion h
        | tag :: bs' =>
            rw [decodeValue] at h
            by_cases h65 : tag = 65
            · rw [if_pos h65] at h
              subst h65
              split at h
              · rename_i n r1 hu
                split at h
                · rename_i content r2 ht
                  split at h
                  · rename_i a ha
                    simp only [Option.some.injEq, Prod.mk.injEq] at h
                    obtain ⟨hv, hr⟩ := h
                    subst hv
                    subst hr
                    obtain ⟨_, hbs⟩ := decodeUInt_sound 4 bs' n r1 hu
                    obtain ⟨hlen, hsplit⟩ := takeExact_sound n r1 content r2 ht
                    have hcontent := iha content a ha
                    have hlen2 : (encodeArray a).length = n := by
                      rw [← hcontent]
                      exact hlen
                    rw [hbs, hsplit, hcontent]
                    simp [encodeValue, hlen2]
                  · exact Option.noConfusion h
                · exact Option.noConfusion h
              · exact Option.noConfusion h
            · rw [if_neg h65] at h
              by_cases h70 : tag = 70
              · rw [if_pos h70] at h
                subst h70
                split at h
                · rename_i n r1 hu
                  split at h
                  · rename_i content r2 ht
                    split at h
                    · rename_i t ht2
                      simp only [Option.some.injEq, Prod.mk.injEq] at h
                      obtain ⟨hv, hr⟩ := h
                      subst hv
                      subst hr
                      obtain ⟨_, hbs⟩ := decodeUInt_sound 4 bs' n r1 hu
                      obtain ⟨hlen, hsplit⟩ := takeExact_sound n r1 content r2 ht
                      have hcontent := ihe content t ht2
                      have hlen2 : (encodeEntries t).length = n := by
                        rw [← hcontent]
                        exact hlen
                      rw [hbs, hsplit, hcontent]
                      simp [encodeValue, hlen2]
                    · exact Option.noConfusion h
                  · exact Option.noConfusion h
                · exact Option.noConfusion h
              · rw [if_neg h70] at h
                exact decodeSimple_sound tag bs' v rest h
      · intro bs t h
        match bs with
        | [] =>
            rw [decodeEntries] at h
            injection h with h
            subst h
            rw [encodeEntries]
        | b :: bs' =>
            rw [decodeEntries] at h
            split at h
            · rename_i name r1 hs
              split at h
              · rename_i v r2 hv
                split at h
                · rename_i t' he
                  injection h with h
                  subst h
                  have h1 := decodeShortstr_sound (b :: bs') name r1 hs
                  have h2 := ihv r1 v r2 hv
                  have h3 := ihe r2 t' he
                  rw [h1, h2, h3, encodeEntries]
                  simp
                · exact Option.noConfusion h
              · exact Option.noConfusion h
            · exact Option.noConfusion h
      · intro bs a h
        match bs with
        | [] =>
            rw [decodeArrayElems] at h
            injection h with h
            subst h
            rw [encodeArray]
        | b :: bs' =>
            rw [decodeArrayElems] at h
            split at h
            · rename_i v r1 hv
              split at h
              · rename_i a' ha
                injection h with h
                subst h
                have h1 := ihv (b :: bs') v r1 hv
                have h2 := iha r1 a' ha
                rw [h1, h2, encodeArray]
              · exact Option.noConfusion h
            · exact Option.noConfusion h


/-- C7: for every well-formed encoded field table (one that decodes, hence
uses only the supported type tags), encoding the decoded value gives back
the original bytes. -/
theorem fieldTable_roundtrip (bs : List Nat) (t : FieldTable) (rest : List Nat)
    (h : decodeTable bs = some (t, rest)) :
    encodeTable t ++ rest = bs := by
  unfold decodeTable at h
  split at h
  · rename_i n r1 hu
    split at h
    · rename_i content r2 ht
      split at h
      · rename_i t2 he
        simp only [Option.some.injEq, Prod.mk.injEq] at h
        obtain ⟨ht2, hr⟩ := h
        subst ht2
        subst hr
        obtain ⟨_, hbs⟩ := decodeUInt_sound 4 bs n r1 hu
        obtain ⟨hlen, hsplit⟩ := takeExact_sound n r1 content r2 ht
        have hcontent := (decode_encode_sound content.length).2.1 content t2 he
        have hlen2 : (encodeEntries t2).length = n := by
          rw [← hcontent]
          exact hlen
        rw [hbs, hsplit, hcontent, encodeTable, hlen2]
        simp
      · exact Option.noConfusion h
    · exact Option.noConfusion h
  · exact Option.noConfusion h

/-- Witness for C7: the one-entry table mapping name byte 97 to void,
encoded as `00 00 00 03 | 01 61 56`, decodes and re-encodes to itself. -/
theorem fieldTable_roundtrip_witness :
    decodeTable [0, 0, 0, 3, 1, 97, 86]
      = some (FieldTable.cons [97] FieldValue.voidV FieldTable.nil, []) ∧
    encodeTable (FieldTable.cons [97] FieldValue.voidV FieldTable.nil) ++ ([] : List Nat)
      = [0, 0, 0, 3, 1, 97, 86] :=
  ⟨rfl, fieldTable_roundtrip [0, 0, 0, 3, 1, 97, 86]
    (FieldTable.cons [97] FieldValue.voidV FieldTable.nil) [] rfl⟩

end AMQP
